import Mathlib

/-!
Verification of the core of the hpc-multibench benchmark harness against its
natural-language specification.

The development shallowly embeds the relevant parts of the Python source:

* `TestBench.instantiations` (src/hpc_multibench/test_bench.py, lines 99-112):
  test-matrix expansion into instantiations;
* `TestBench.record` (lines 193-263) together with `RunConfiguration.run`
  (src/hpc_multibench/run_configuration.py): submission of rerun groups with
  scheduler dependencies, and the ledger of metadata rows written afterwards;
* `TestBench.get_run_outputs` (lines 288-306): reconstruction of rerun groups
  from ledger rows by rerun-index reset detection;
* `TestBench.aggregate_run_metrics` (lines 346-409): sorting, alternating
  highest/lowest trimming, mean and sample standard deviation;
* `TestBench.calculate_derived_metrics` (lines 411-472): derived-metric
  formula evaluation;
* `RunConfigurationModel.realise` (src/hpc_multibench/yaml_model.py,
  lines 48-73): applying instantiation fields onto a run configuration.

Python dicts are modelled as association lists with first-insertion-order /
last-value-wins insertion (`dictInsert`), machine floats as exact rationals
(the claims only involve small exact values; a standard deviation is carried
as its square, the sample variance, to stay inside the rationals), raised
exceptions as `Except.error`, and the external scheduler as an oracle
function from the running submission counter to `Option Nat` (the job id
`sbatch` reported, or `none` for a submission failure).
-/

/-- A Python scalar value as it appears in test-matrix axes: the claims only
need numbers and strings. -/
inductive Val where
  | nat (n : Nat)
  | str (s : String)
deriving DecidableEq, Repr

/-- The text Python's str() produces for a `Val`. -/
def Val.toText : Val → String
  | .nat n => toString n
  | .str s => s

/-- Insertion into a Python dict modelled as an association list: an existing
key keeps its (first-insertion) position and gets the new value, a new key is
appended. -/
def dictInsert {α : Type} (d : List (String × α)) (kv : String × α) :
    List (String × α) :=
  if d.any (fun p => p.1 == kv.1) then
    d.map (fun p => if p.1 == kv.1 then (p.1, kv.2) else p)
  else d ++ [kv]

/-- The dict a Python dict comprehension builds from a sequence of key/value
pairs. -/
def dictOfPairs {α : Type} (l : List (String × α)) : List (String × α) :=
  l.foldl dictInsert []

/-- Python's enumerate, starting at index k. -/
def enumFrom {α : Type} (k : Nat) : List α → List (Nat × α)
  | [] => []
  | a :: l => (k, a) :: enumFrom (k + 1) l

/-- One axis of the test matrix of a bench model: a key that is a single
field name with one value per instantiation fragment, or a linked tuple of
field names whose values vary in lock-step (test_bench.py line 101-108 reads
these off bench_model.matrix.items()). -/
inductive Axis (α : Type) where
  | single (key : String) (values : List α)
  | linked (keys : List String) (values : List (List α))
deriving DecidableEq, Repr

/-- Sequencing a fallible function over a list, stopping at the first raised
exception: the effect a Python list comprehension over a raising expression
has. -/
def mapME {α β : Type} (f : α → Except String β) : List α → Except String (List β)
  | [] => .ok []
  | a :: l =>
    match f a with
    | .error e => .error e
    | .ok b =>
      match mapME f l with
      | .error e => .error e
      | .ok bs => .ok (b :: bs)

/-- Python's zip(key, setting, strict=True): pairs the field names with the
components of one linked-axis value tuple, raising ValueError when the
lengths differ. -/
def zipStrict {α : Type} (keys : List String) (setting : List α) :
    Except String (List (String × α)) :=
  if keys.length = setting.length then
    .ok (keys.zip setting)
  else
    .error "ValueError: zip() argument lengths differ"

/-- The fragment list one axis contributes, mirroring the `shaped`
comprehension of TestBench.instantiations: a single-key axis yields one
one-pair fragment per value, a linked axis zips each value tuple against the
key tuple strictly. -/
def shapedAxis {α : Type} : Axis α → Except String (List (List (String × α)))
  | .single key values => .ok (values.map (fun v => [(key, v)]))
  | .linked keys values => mapME (zipStrict keys) values

/-- itertools.product over a list of lists, first list outermost, matching
the iteration order of product(*shaped). -/
def listProd {β : Type} : List (List β) → List (List β)
  | [] => [[]]
  | l :: ls => l.flatMap (fun x => (listProd ls).map (fun c => x :: c))

/-- TestBench.instantiations (test_bench.py lines 99-112): shape every matrix
axis into fragments, take the Cartesian product across axes in declaration
order, and merge each combination into one instantiation dict. -/
def instantiations {α : Type} (matrix : List (Axis α)) :
    Except String (List (List (String × α))) :=
  match mapME shapedAxis matrix with
  | .error e => .error e
  | .ok shaped =>
      .ok ((listProd shaped).map (fun combination => dictOfPairs combination.flatten))

/-- The number of instantiation fragments an axis is declared with: its value
count. -/
def axisLen {α : Type} : Axis α → Nat
  | .single _ values => values.length
  | .linked _ values => values.length

theorem sum_map_const {β : Type} (l : List β) (c : Nat) :
    (l.map (fun _ => c)).sum = l.length * c := by
  induction l with
  | nil => simp
  | cons a l ihl => simp [ihl, Nat.succ_mul, Nat.add_comm]

theorem listProd_length {β : Type} (ls : List (List β)) :
    (listProd ls).length = (ls.map List.length).prod := by
  induction ls with
  | nil => rfl
  | cons l ls ih =>
    simp only [listProd, List.length_flatMap, List.map_map, List.map_cons,
      List.prod_cons]
    have h : (List.length ∘ fun x => (listProd ls).map (fun c => x :: c)) =
        fun _ : β => (listProd ls).length := by
      funext x; simp
    rw [h, sum_map_const, ih]

theorem mapME_ok_length {α β : Type} {f : α → Except String β} :
    ∀ {l : List α} {l' : List β}, mapME f l = .ok l' → l'.length = l.length := by
  intro l
  induction l with
  | nil =>
    intro l' h
    simp [mapME] at h
    simp [← h]
  | cons a l ih =>
    intro l' h
    simp only [mapME] at h
    cases hf : f a with
    | error e => simp [hf] at h
    | ok b =>
      simp only [hf] at h
      cases hrest : mapME f l with
      | error e => simp [hrest] at h
      | ok bs =>
        simp only [hrest] at h
        cases h
        simp [ih hrest]

theorem shapedAxis_ok_length {α : Type} {a : Axis α}
    {fr : List (List (String × α))} (h : shapedAxis a = .ok fr) :
    fr.length = axisLen a := by
  cases a with
  | single key values =>
    simp [shapedAxis] at h
    simp [← h, axisLen]
  | linked keys values =>
    simp only [shapedAxis] at h
    simpa [axisLen] using mapME_ok_length h

theorem mapME_shaped_lengths {α : Type} :
    ∀ {m : List (Axis α)} {sh : List (List (List (String × α)))},
      mapME shapedAxis m = .ok sh → sh.map List.length = m.map axisLen := by
  intro m
  induction m with
  | nil =>
    intro sh h
    simp [mapME] at h
    simp [← h]
  | cons a m ih =>
    intro sh h
    simp only [mapME] at h
    cases hf : shapedAxis a with
    | error e => simp [hf] at h
    | ok fr =>
      simp only [hf] at h
      cases hrest : mapME shapedAxis m with
      | error e => simp [hrest] at h
      | ok frs =>
        simp only [hrest] at h
        cases h
        simp [shapedAxis_ok_length hf, ih hrest]

theorem mapME_err_of_mem {α β : Type} {f : α → Except String β} :
    ∀ {l : List α}, (∃ a ∈ l, ∃ e, f a = .error e) →
      ∃ e, mapME f l = .error e := by
  intro l
  induction l with
  | nil => rintro ⟨a, ha, _⟩; cases ha
  | cons x l ih =>
    rintro ⟨a, ha, e, hae⟩
    rcases List.mem_cons.mp ha with h | h
    · subst h
      exact ⟨e, by simp [mapME, hae]⟩
    · cases hx : f x with
      | error e₂ => exact ⟨e₂, by simp [mapME, hx]⟩
      | ok b =>
        obtain ⟨e₃, he₃⟩ := ih ⟨a, h, e, hae⟩
        exact ⟨e₃, by simp [mapME, hx, he₃]⟩

/-- C2. For every MatrixSpec whose expansion succeeds, TestBench.instantiations
produces exactly the product over all axes of the number of values per axis;
repeated evaluation of the same MatrixSpec yields an identical list; and the
empty MatrixSpec yields exactly one empty Instantiation.  The concrete
two-axis conjunct exhibits the Cartesian product taken in axis declaration
order (first axis outermost), matching itertools.product. -/
theorem instantiations_count_deterministic_empty :
    (∀ (matrix : List (Axis Val)) (l : List (List (String × Val))),
        instantiations matrix = .ok l →
        l.length = (matrix.map axisLen).prod) ∧
    (∀ matrix : List (Axis Val), instantiations matrix = instantiations matrix) ∧
    instantiations ([] : List (Axis Val)) = .ok [[]] ∧
    instantiations [Axis.single "a" [Val.nat 1, Val.nat 2],
        Axis.single "b" [Val.nat 10, Val.nat 20]] =
      .ok [[("a", Val.nat 1), ("b", Val.nat 10)],
        [("a", Val.nat 1), ("b", Val.nat 20)],
        [("a", Val.nat 2), ("b", Val.nat 10)],
        [("a", Val.nat 2), ("b", Val.nat 20)]] := by
  refine ⟨?_, fun _ => rfl, rfl, rfl⟩
  intro matrix l h
  unfold instantiations at h
  cases hsh : mapME shapedAxis matrix with
  | error e => simp [hsh] at h
  | ok shaped =>
    simp only [hsh] at h
    cases h
    rw [List.length_map, listProd_length, mapME_shaped_lengths hsh]

theorem shapedAxis_linked_err {α : Type} {ks : List String}
    {settings : List (List α)}
    (h : ∃ s ∈ settings, s.length ≠ ks.length) :
    ∃ e, shapedAxis (Axis.linked ks settings) = .error e := by
  obtain ⟨s, hs, hne⟩ := h
  refine mapME_err_of_mem ⟨s, hs, ?_⟩
  refine ⟨"ValueError: zip() argument lengths differ", ?_⟩
  have hne₂ : ¬ks.length = s.length := fun hlen => hne hlen.symm
  simp [zipStrict, hne₂]

/-- C6. A linked axis assigns all its named fields simultaneously by
positional zipping, one instantiation fragment per value tuple, never a
cross product of the fields: the axis (a, b) with values [[1, "x"], [2, "y"]]
expands to exactly the two instantiations a=1, b="x" and a=2, b="y".  A value
tuple whose length differs from the key tuple's makes the whole expansion
fail with an error (zip strict=True), rather than truncating silently. -/
theorem linked_axis_zips_not_crosses :
    instantiations [Axis.linked ["a", "b"]
        [[Val.nat 1, Val.str "x"], [Val.nat 2, Val.str "y"]]] =
      .ok [[("a", Val.nat 1), ("b", Val.str "x")],
        [("a", Val.nat 2), ("b", Val.str "y")]] ∧
    (∀ (ks : List String) (settings : List (List Val)) (m : List (Axis Val)),
      Axis.linked ks settings ∈ m →
      (∃ s ∈ settings, s.length ≠ ks.length) →
      ∃ e, instantiations m = .error e) := by
  refine ⟨rfl, ?_⟩
  intro ks settings m hmem hbad
  obtain ⟨e, he⟩ := shapedAxis_linked_err hbad
  obtain ⟨e₂, he₂⟩ := mapME_err_of_mem (f := shapedAxis) ⟨_, hmem, e, he⟩
  exact ⟨e₂, by simp [instantiations, he₂]⟩

/-- The rerun-group reconstruction fold of TestBench.get_run_outputs
(test_bench.py lines 288-306): prev_rerun_count starts at -1; a fresh
RerunGroup is begun when the row's rerun index differs from the previous
index plus one and the group built so far is non-empty; the group being
built is appended once the rows end.  Rows are abstracted to their
rerun_count column, and every row's configuration name is taken to be
present in the run-configuration models (the skip branch for names excluded
from the YAML file is not taken). -/
def reconstructAux (prev : Int) (group : List Nat) (acc : List (List Nat)) :
    List Nat → List (List Nat)
  | [] => acc ++ [group]
  | x :: xs =>
    if (x : Int) ≠ prev + 1 ∧ group ≠ [] then
      reconstructAux x [x] (acc ++ [group]) xs
    else
      reconstructAux x (group ++ [x]) acc xs

/-- TestBench.get_run_outputs reconstruction of rerun groups from ledger
rows, starting from prev_rerun_count = -1 and an empty group. -/
def reconstructGroups (rows : List Nat) : List (List Nat) :=
  reconstructAux (-1) [] [] rows

/-- Modelled from the spec's reconstruction rule: walking rows in file
order, a new RerunGroup starts exactly at a row whose rerun index is not the
previous row's index plus one. -/
def specSplitAux (prev : Nat) (cur : List Nat) : List Nat → List (List Nat)
  | [] => [cur]
  | x :: xs =>
    if x = prev + 1 then specSplitAux x (cur ++ [x]) xs
    else cur :: specSplitAux x [x] xs

/-- The split of a row list at every non-successor rerun index, per the
spec's words; the first row always opens the first group. -/
def specSplit : List Nat → List (List Nat)
  | [] => []
  | x :: xs => specSplitAux x [x] xs

theorem reconstructAux_eq_specSplitAux :
    ∀ (xs : List Nat) (p : Nat) (cur : List Nat) (acc : List (List Nat)),
      cur ≠ [] →
      reconstructAux (p : Int) cur acc xs = acc ++ specSplitAux p cur xs := by
  intro xs
  induction xs with
  | nil => intro p cur acc _; rfl
  | cons x xs ih =>
    intro p cur acc hcur
    by_cases hx : x = p + 1
    · have hcond : ¬((x : Int) ≠ (p : Int) + 1 ∧ cur ≠ []) := by
        rintro ⟨h₁, _⟩
        apply h₁
        subst hx
        push_cast
        ring
      rw [reconstructAux, if_neg hcond, specSplitAux, if_pos hx]
      exact ih x (cur ++ [x]) acc (by simp)
    · have hcond : ((x : Int) ≠ (p : Int) + 1 ∧ cur ≠ []) := by
        constructor
        · intro hc
          exact hx (by exact_mod_cast hc)
        · exact hcur
      rw [reconstructAux, if_pos hcond, specSplitAux, if_neg hx]
      rw [ih x [x] (acc ++ [cur]) (by simp)]
      simp

/-- C4. Ledger reconstruction walks rows in file order and starts a new
RerunGroup exactly when a row's rerun index is not the previous row's index
plus one (the fold of get_run_outputs agrees with that splitting rule on
every non-empty row list), and rows with rerun indices [0, 1, 2, 0, 1]
reconstruct into exactly the two groups [0, 1, 2] and [0, 1], of sizes 3 and
2, in that order. -/
theorem ledger_reconstruction_splits_at_resets :
    (∀ rows : List Nat, rows ≠ [] → reconstructGroups rows = specSplit rows) ∧
    reconstructGroups [0, 1, 2, 0, 1] = [[0, 1, 2], [0, 1]] ∧
    (reconstructGroups [0, 1, 2, 0, 1]).map List.length = [3, 2] := by
  refine ⟨?_, by decide, by decide⟩
  intro rows hrows
  match rows with
  | [] => exact absurd rfl hrows
  | x :: xs =>
    show reconstructAux (-1) [] [] (x :: xs) = specSplit (x :: xs)
    rw [reconstructAux, if_neg (by simp)]
    simpa using reconstructAux_eq_specSplitAux xs x [x] [] (by simp)

/-- The pruning loop of TestBench.aggregate_run_metrics (test_bench.py lines
382-392): while more than one value remains and discards are left, drop the
highest value (the last of the ascending list) when highest discards remain,
then drop the lowest when lowest discards remain.  The early-stop check of
line 388 compares len(values) — the length of the unchanging input list,
passed here as lenV — not len(pruned_values), so it fires only when the
whole input had at most one element (in which case the loop is never
entered): as written it is dead code.  Metric values are modelled as exact
rationals. -/
def trimLoop (lenV : Nat) (pruned : List ℚ) (hd ld : Nat) : List ℚ :=
  if h : 1 < pruned.length ∧ (0 < hd ∨ 0 < ld) then
    if 0 < hd then
      if lenV ≤ 1 then pruned.dropLast
      else if 0 < ld then trimLoop lenV (pruned.dropLast.drop 1) (hd - 1) (ld - 1)
      else trimLoop lenV pruned.dropLast (hd - 1) ld
    else
      trimLoop lenV (pruned.drop 1) hd (ld - 1)
  else pruned
termination_by hd + ld
decreasing_by all_goals omega

/-- Line 379 followed by the loop: sort the collected values ascending, then
prune with the configured highest and lowest discard counts. -/
def trimmedValues (hd ld : Nat) (values : List ℚ) : List ℚ :=
  trimLoop values.length (List.insertionSort (fun a b => a ≤ b) values) hd ld

/-- statistics.fmean on an exact-rational model (only applied to non-empty
lists; Python raises StatisticsError on an empty one). -/
def fmeanQ (xs : List ℚ) : ℚ := xs.sum / (xs.length : ℚ)

/-- The square of statistics.stdev — the sample variance — kept as an exact
rational so it stays representable; Python raises StatisticsError when fewer
than two data points are given. -/
def sampleVarianceQ (xs : List ℚ) : ℚ :=
  ((xs.map (fun x => (x - fmeanQ xs) ^ 2)).sum) / ((xs.length : ℚ) - 1)

/-- The mean and reported uncertainty of one aggregated numeric metric (the
UFloat of line 401), the uncertainty carried as its square. -/
structure AggNum where
  mean : ℚ
  stdevSq : ℚ
deriving DecidableEq, Repr

def fmeanErr : String := "StatisticsError: fmean requires at least one data point"

def stdevErr : String := "StatisticsError: stdev requires at least two data points"

/-- The numeric path of aggregate_run_metrics for one metric (lines
378-401): trim the sorted values, take fmean (raising on an empty list),
then take stdev exactly when the CONFIGURED undiscarded rerun count `und`
(reruns_model.undiscarded_number, line 398) is at least two — raising when
fewer than two values actually remain — and the constant 0.0 otherwise. -/
def aggregateNumeric (hd ld und : Nat) (values : List ℚ) : Except String AggNum :=
  let pruned := trimmedValues hd ld values
  if pruned.isEmpty then .error fmeanErr
  else if 2 ≤ und then
    if pruned.length < 2 then .error stdevErr
    else .ok ⟨fmeanQ pruned, sampleVarianceQ pruned⟩
  else .ok ⟨fmeanQ pruned, 0⟩

/-- The result of aggregating one metric of a rerun group: a passthrough of
the first collected value, or a mean with uncertainty. -/
inductive AggResult where
  | passthrough (v : ℚ)
  | aggregated (a : AggNum)
deriving DecidableEq, Repr

/-- The per-metric dispatch of aggregate_run_metrics (lines 369-401): with
one configured rerun or an unaggregatable metric the first collected value
is passed through verbatim (values[0]); otherwise the numeric aggregation
runs.  The collected raw values are modelled as already-parsed numbers, the
situation the claims address (all raw values parse). -/
def aggregateMetric (number hd ld und : Nat) (unagg : Bool) (values : List ℚ) :
    Except String AggResult :=
  if number = 1 ∨ unagg = true then
    match values with
    | [] => .error "IndexError: list index out of range"
    | v :: _ => .ok (.passthrough v)
  else
    match aggregateNumeric hd ld und values with
    | .error e => .error e
    | .ok a => .ok (.aggregated a)

theorem trimLoop_length (lenV : Nat) :
    ∀ (n hd ld : Nat) (pruned : List ℚ), hd + ld = n →
      hd + ld < pruned.length → 2 ≤ lenV →
      (trimLoop lenV pruned hd ld).length = pruned.length - hd - ld := by
  intro n
  induction n using Nat.strong_induction_on with
  | _ n ih =>
    intro hd ld pruned hn hlt hlen
    rcases Nat.eq_zero_or_pos hd with hhd | hhd
    · rcases Nat.eq_zero_or_pos ld with hld | hld
      · rw [trimLoop, dif_neg (by omega)]
        omega
      · rw [trimLoop, dif_pos (by constructor <;> omega), if_neg (by omega)]
        rw [ih (hd + (ld - 1)) (by omega) hd (ld - 1) (pruned.drop 1) rfl
          (by simp [List.length_drop]; omega) hlen]
        simp [List.length_drop]
        omega
    · rw [trimLoop, dif_pos (by constructor <;> omega), if_pos hhd,
        if_neg (by omega)]
      rcases Nat.eq_zero_or_pos ld with hld | hld
      · rw [if_neg (by omega)]
        rw [ih ((hd - 1) + ld) (by omega) (hd - 1) ld pruned.dropLast rfl
          (by simp [List.length_dropLast]; omega) hlen]
        simp [List.length_dropLast]
        omega
      · rw [if_pos hld]
        rw [ih ((hd - 1) + (ld - 1)) (by omega) (hd - 1) (ld - 1)
          (pruned.dropLast.drop 1) rfl
          (by simp [List.length_drop, List.length_dropLast]; omega) hlen]
        simp [List.length_drop, List.length_dropLast]
        omega

/-- C3. Evaluating the aggregation of test_bench.py at the spec's own
example and at the input that exposes the slip in the early-stop check:
[10, 20, 30, 40, 50] with one highest and one lowest discard trims to
[20, 30, 40] with mean 30 (variance 100) as the claim states; but [10, 20]
with the same discards — a group in which extraction failures left only two
parsed values — is trimmed to the EMPTY list, because the check that should
stop the pruning when one value remains reads len(values), which the loop
never changes, instead of len(pruned_values); statistics.fmean then raises
instead of aggregating the remaining value 10. -/
theorem aggregate_trimming_example_and_failing_input :
    aggregateMetric 5 1 1 3 false [10, 20, 30, 40, 50] =
      .ok (.aggregated ⟨30, 100⟩) ∧
    trimmedValues 1 1 [10, 20, 30, 40, 50] = [20, 30, 40] ∧
    trimmedValues 1 1 [10, 20] = [] ∧
    aggregateMetric 2 1 1 0 false [10, 20] = .error fmeanErr := by
  have h₁ : trimmedValues 1 1 [10, 20, 30, 40, 50] = [20, 30, 40] := by
    simp [trimmedValues, List.insertionSort, List.orderedInsert, trimLoop]
    norm_num
  have h₂ : trimmedValues 1 1 [10, 20] = [] := by
    simp [trimmedValues, List.insertionSort, List.orderedInsert, trimLoop]
    norm_num
  refine ⟨?_, h₁, h₂, ?_⟩
  · rw [aggregateMetric, if_neg (by simp)]
    rw [show aggregateNumeric 1 1 3 [10, 20, 30, 40, 50] =
        .ok ⟨30, 100⟩ from ?_]
    rw [aggregateNumeric]
    simp only [h₁]
    norm_num [fmeanQ, sampleVarianceQ]
  · rw [aggregateMetric, if_neg (by simp)]
    rw [show aggregateNumeric 1 1 0 [10, 20] = .error fmeanErr from ?_]
    rw [aggregateNumeric]
    simp [h₂]

/-- C5 counterexample: a rerun group whose collected values reduce to the
single value 10 (two of three reruns lost to extraction failures, no
discards configured, so one value remains after trimming), with the
configured undiscarded rerun count 3.  The claim says the uncertainty is
reported as zero and aggregation succeeds; the code instead guards stdev by
the configured count and statistics.stdev raises on the single value. -/
theorem stdev_guard_counterexample :
    trimmedValues 0 0 [10] = [10] ∧
    aggregateNumeric 0 0 3 [10] = .error stdevErr := by
  constructor
  · simp [trimmedValues, List.insertionSort, List.orderedInsert, trimLoop]
  · rw [aggregateNumeric]
    simp [trimmedValues, List.insertionSort, List.orderedInsert, trimLoop]

/-- C5 as amended.  The sample standard deviation is computed exactly when
the CONFIGURED undiscarded rerun count (reruns_model.undiscarded_number) is
at least two, not when at least two values remain after trimming: with a
configured count below two the uncertainty is the constant zero whatever
remains; with a configured count of at least two and at least two remaining
values the sample statistics are computed; with a configured count of at
least two but exactly one remaining value, aggregation raises a
StatisticsError instead of reporting zero uncertainty.  When no values are
missing — strictly more values than the two discard counts combined — the
number remaining after trimming is exactly the collected count minus both
discard counts, so the configured-count guard and the claim's
remaining-count guard agree on complete rerun groups. -/
theorem stdev_guard_is_configured_count :
    (∀ (hd ld und : Nat) (values : List ℚ), und < 2 →
        trimmedValues hd ld values ≠ [] →
        aggregateNumeric hd ld und values =
          .ok ⟨fmeanQ (trimmedValues hd ld values), 0⟩) ∧
    (∀ (hd ld und : Nat) (values : List ℚ), 2 ≤ und →
        2 ≤ (trimmedValues hd ld values).length →
        aggregateNumeric hd ld und values =
          .ok ⟨fmeanQ (trimmedValues hd ld values),
            sampleVarianceQ (trimmedValues hd ld values)⟩) ∧
    (∀ (hd ld und : Nat) (values : List ℚ), 2 ≤ und →
        (trimmedValues hd ld values).length = 1 →
        aggregateNumeric hd ld und values = .error stdevErr) ∧
    (∀ (hd ld : Nat) (values : List ℚ), hd + ld < values.length →
        (trimmedValues hd ld values).length = values.length - hd - ld) := by
  refine ⟨?_, ?_, ?_, ?_⟩
  · intro hd ld und values hund hne
    rw [aggregateNumeric]
    simp only [List.isEmpty_iff]
    rw [if_neg hne, if_neg (by omega)]
  · intro hd ld und values hund hlen
    rw [aggregateNumeric]
    simp only [List.isEmpty_iff]
    rw [if_neg (by intro h; rw [h] at hlen; simp at hlen), if_pos hund,
      if_neg (by omega)]
  · intro hd ld und values hund hlen
    rw [aggregateNumeric]
    simp only [List.isEmpty_iff]
    rw [if_neg (by intro h; rw [h] at hlen; simp at hlen), if_pos hund,
      if_pos (by omega)]
  · intro hd ld values hlt
    have hsort : (List.insertionSort (fun a b : ℚ => a ≤ b) values).length =
        values.length :=
      (List.perm_insertionSort _ values).length_eq
    rcases Nat.eq_zero_or_pos (hd + ld) with hz | hp
    · rw [trimmedValues, trimLoop, dif_neg (by omega)]
      omega
    · rw [trimmedValues,
        trimLoop_length values.length (hd + ld) hd ld _ rfl (by omega)
          (by omega)]
      omega

/-- One sbatch submission attempt made by TestBench.record (test_bench.py
lines 219-243): which instantiation of the model's realised list it belongs
to, which rerun iteration, the first_job_id dependency passed to
RunConfiguration.run (none for a canonical submission), whether the run was
marked pre_built before submitting (the build step replaced by an echo,
run_configuration.py lines 77-80), and the job id the scheduler returned
(none when the submission failed to queue). -/
structure Submission where
  inst : Nat
  rerun : Nat
  dep : Option Nat
  preBuilt : Bool
  result : Option Nat
deriving DecidableEq, Repr

/-- The first job id among a list of submission results. -/
def firstSome (l : List (Option Nat)) : Option Nat := (l.filterMap id).head?

/-- The value of first_job_id after starting from fj and seeing the results
l: an already-set first_job_id is kept, otherwise the first success of l. -/
def orElseFS (fj : Option Nat) (l : List (Option Nat)) : Option Nat :=
  match fj with
  | some j => some j
  | none => firstSome l

/-- The scheduler's responses to the first k submission attempts counted
from ctr. -/
def resultsUpTo (oracle : Nat → Option Nat) (ctr k : Nat) : List (Option Nat) :=
  (List.range k).map (fun j => oracle (ctr + j))

/-- The inner rerun loop of TestBench.record (lines 220-242) for one
realised run configuration: while first_job_id is None the run is submitted
with no dependency and the build step enabled, and first_job_id is assigned
the returned job id EVEN WHEN the submission failed (line 227-228 assigns
before the None check, so a failure leaves it None and the next iteration
submits canonically again); once first_job_id holds a job id, pre_built is
set and the run is submitted with that dependency.  Every attempt consumes
one scheduler call; `ctr` is the global submission counter indexing the
oracle.  Returns the submissions made, then the final first_job_id and
counter. -/
def runGroup (oracle : Nat → Option Nat) (i : Nat) (fj : Option Nat)
    (ctr : Nat) : List Nat → List Submission × Option Nat × Nat
  | [] => ([], fj, ctr)
  | r :: rs =>
    let res := oracle ctr
    let fj₂ := match fj with
      | some j => some j
      | none => res
    let rest := runGroup oracle i fj₂ (ctr + 1) rs
    (⟨i, r, fj, fj.isSome, res⟩ :: rest.1, rest.2)

/-- The middle loop of TestBench.record (line 219): the model's realised run
configurations in instantiation order, each given reruns.number iterations,
with first_job_id THREADED ACROSS INSTANTIATIONS — it is initialised once
per run-configuration model (line 218), not once per (configuration,
instantiation) group. -/
def runModelAux (oracle : Nat → Option Nat) (fj : Option Nat) (ctr N : Nat) :
    List Nat → List (List Submission) × Option Nat × Nat
  | [] => ([], fj, ctr)
  | i :: rest =>
    let g := runGroup oracle i fj ctr (List.range N)
    let after := runModelAux oracle g.2.1 g.2.2 N rest
    (g.1 :: after.1, after.2)

/-- All rerun groups one run-configuration model submits: first_job_id
starts as None once for the whole model. -/
def runModel (oracle : Nat → Option Nat) (ctr numInsts N : Nat) :
    List (List Submission) × Option Nat × Nat :=
  runModelAux oracle none ctr N (List.range numInsts)

/-- The flat submission sequence of one run-configuration model, in the
order record makes them. -/
def modelSubs (oracle : Nat → Option Nat) (ctr numInsts N : Nat) :
    List Submission :=
  (runModel oracle ctr numInsts N).1.flatten

/-- The outer loop of TestBench.record (line 215) over the realised
run-configuration models: first_job_id resets per model, the submission
counter runs on. -/
def recordBenchAux (oracle : Nat → Option Nat) (numInsts N : Nat) :
    Nat → List Nat → List (Nat × List (List Submission))
  | _, [] => []
  | ctr, m :: rest =>
    let g := runModel oracle ctr numInsts N
    (m, g.1) :: recordBenchAux oracle numInsts N g.2.2 rest

/-- One full record pass: every model (in dict order), every instantiation,
every rerun, against the scheduler oracle; dry_run is false and the output
directory was clobbered (no prior state). -/
def recordBench (numModels numInsts N : Nat) (oracle : Nat → Option Nat) :
    List (Nat × List (List Submission)) :=
  recordBenchAux oracle numInsts N 0 (List.range numModels)

/-- The keys of one group's rerun_map dict (line 220, 242) in insertion
order: one key per successful submission; a job id equal to an existing key
would overwrite its (identical) value and keep the first position, so the
fold keeps first occurrences. -/
def groupJobIds (subs : List Submission) : List Nat :=
  subs.foldl
    (fun acc s =>
      match s.result with
      | none => acc
      | some j => if acc.contains j then acc else acc ++ [j]) []

/-- One row of runs_metadata.csv: the RunConfigurationMetadata dataclass
(test_bench.py lines 34-42) written in record lines 251-263. -/
structure LedgerEntry (α : Type) where
  jobId : Nat
  rerunCount : Nat
  name : String
  outputFileName : String
  instantiation : α
deriving DecidableEq, Repr

/-- Python's s[:-n] slice, by characters. -/
def pyDropRight (s : String) (n : Nat) : String :=
  ⟨s.data.take (s.data.length - n)⟩

/-- RunConfiguration.get_true_output_file_name (run_configuration.py lines
126-128): the output file name with the scheduler's %j placeholder replaced
by the actual job id; output_file.name is name ++ "__%j.out" and the slice
drops its last 8 characters. -/
def trueOutputFileName (name : String) (jobId : Nat) : String :=
  pyDropRight (name ++ "__%j.out") 8 ++ "__" ++ toString jobId ++ ".out"

/-- The ledger rows record writes (lines 251-263): for every rerun_map of
run_configuration_job_ids in order, enumerate its job ids and emit one row
per id with the enumeration position as rerun_count, the model's name, the
true output file name and the instantiation. -/
def ledgerOf {α : Type} [Inhabited α] (names : List String) (insts : List α)
    (N : Nat) (oracle : Nat → Option Nat) : List (LedgerEntry α) :=
  (recordBench names.length insts.length N oracle).flatMap (fun mg =>
    (enumFrom 0 mg.2).flatMap (fun ig =>
      (enumFrom 0 (groupJobIds ig.2)).map (fun p =>
        ⟨p.2, p.1, names.getD mg.1 "",
          trueOutputFileName (names.getD mg.1 "") p.2,
          insts.getD ig.1 default⟩)))

/-- The ledger as the claim describes it: exactly one entry per successful
submission of each rerun group, in submission order, with the rerun index
the position among that group's successes and the entry carrying the job
id, configuration name, true output-file name and instantiation. -/
def specLedger {α : Type} [Inhabited α] (names : List String) (insts : List α)
    (N : Nat) (oracle : Nat → Option Nat) : List (LedgerEntry α) :=
  (recordBench names.length insts.length N oracle).flatMap (fun mg =>
    (enumFrom 0 mg.2).flatMap (fun ig =>
      (enumFrom 0 (ig.2.filterMap (fun s => s.result))).map (fun p =>
        ⟨p.2, p.1, names.getD mg.1 "",
          trueOutputFileName (names.getD mg.1 "") p.2,
          insts.getD ig.1 default⟩)))

/-- A scheduler that never reports the same job id for two different
submissions — what slurm guarantees. -/
def injOracle (oracle : Nat → Option Nat) : Prop :=
  ∀ i j x, oracle i = some x → oracle j = some x → i = j

/-- The per-group success counts of a record pass, group order preserved. -/
def groupSuccessCounts (numModels numInsts N : Nat)
    (oracle : Nat → Option Nat) : List Nat :=
  (recordBench numModels numInsts N oracle).flatMap (fun mg =>
    mg.2.map (fun subs => (subs.filterMap (fun s => s.result)).length))

/-- The i-th instantiation fragment pairs of a model: every (instantiation
index, rerun iteration) pair of a model in submission order. -/
def groupPairs (is : List Nat) (N : Nat) : List (Nat × Nat) :=
  is.flatMap (fun i => (List.range N).map (fun r => (i, r)))

theorem enumFrom_shift {α : Type} :
    ∀ (l : List α) (k d : Nat),
      enumFrom (k + d) l = (enumFrom k l).map (fun p => (p.1 + d, p.2)) := by
  intro l
  induction l with
  | nil => intro k d; rfl
  | cons a l ih =>
    intro k d
    show (k + d, a) :: enumFrom (k + d + 1) l = _
    have : k + d + 1 = (k + 1) + d := by omega
    rw [this, ih (k + 1) d]
    rfl

theorem enumFrom_append {α : Type} :
    ∀ (l₁ l₂ : List α) (k : Nat),
      enumFrom k (l₁ ++ l₂) = enumFrom k l₁ ++ enumFrom (k + l₁.length) l₂ := by
  intro l₁
  induction l₁ with
  | nil => intro l₂ k; simp [enumFrom]
  | cons a l ih =>
    intro l₂ k
    show (k, a) :: enumFrom (k + 1) (l ++ l₂) = _
    rw [ih l₂ (k + 1)]
    have : k + 1 + l.length = k + (l.length + 1) := by omega
    rw [this]
    rfl

theorem enumFrom_map {α β : Type} (f : α → β) :
    ∀ (l : List α) (k : Nat),
      enumFrom k (l.map f) = (enumFrom k l).map (fun p => (p.1, f p.2)) := by
  intro l
  induction l with
  | nil => intro k; rfl
  | cons a l ih =>
    intro k
    show (k, f a) :: enumFrom (k + 1) (l.map f) = _
    rw [ih (k + 1)]
    rfl

theorem enumFrom_map_fst {α : Type} :
    ∀ (l : List α) (k : Nat),
      (enumFrom k l).map Prod.fst = List.range' k l.length := by
  intro l
  induction l with
  | nil => intro k; rfl
  | cons a l ih =>
    intro k
    show k :: (enumFrom (k + 1) l).map Prod.fst = _
    rw [ih (k + 1), List.length_cons, List.range'_succ]

theorem enumFrom_map_snd {α : Type} :
    ∀ (l : List α) (k : Nat), (enumFrom k l).map Prod.snd = l := by
  intro l
  induction l with
  | nil => intro k; rfl
  | cons a l ih =>
    intro k
    show a :: (enumFrom (k + 1) l).map Prod.snd = _
    rw [ih (k + 1)]

theorem orElseFS_nil (fj : Option Nat) : orElseFS fj [] = fj := by
  cases fj <;> rfl

theorem orElseFS_cons (fj : Option Nat) (a : Option Nat) (l : List (Option Nat)) :
    orElseFS fj (a :: l) =
      orElseFS (match fj with | some j => some j | none => a) l := by
  cases fj with
  | some j => rfl
  | none =>
    cases a with
    | some x => simp [orElseFS, firstSome]
    | none => simp [orElseFS, firstSome]

theorem orElseFS_append (fj : Option Nat) (l₁ l₂ : List (Option Nat)) :
    orElseFS (orElseFS fj l₁) l₂ = orElseFS fj (l₁ ++ l₂) := by
  cases fj with
  | some j => rfl
  | none =>
    show orElseFS (firstSome l₁) l₂ = firstSome (l₁ ++ l₂)
    cases h : (l₁.filterMap id) with
    | nil =>
      have : firstSome l₁ = none := by simp [firstSome, h]
      rw [this]
      show firstSome l₂ = firstSome (l₁ ++ l₂)
      simp [firstSome, List.filterMap_append, h]
    | cons x xs =>
      have : firstSome l₁ = some x := by simp [firstSome, h]
      rw [this]
      show some x = firstSome (l₁ ++ l₂)
      simp [firstSome, List.filterMap_append, h]

theorem resultsUpTo_zero (oracle : Nat → Option Nat) (ctr : Nat) :
    resultsUpTo oracle ctr 0 = [] := rfl

theorem resultsUpTo_succ (oracle : Nat → Option Nat) (ctr k : Nat) :
    resultsUpTo oracle ctr (k + 1) =
      oracle ctr :: resultsUpTo oracle (ctr + 1) k := by
  rw [resultsUpTo, List.range_succ_eq_map, List.map_cons, List.map_map]
  congr 1
  rw [resultsUpTo]
  congr 1
  funext j
  simp [Function.comp]
  congr 1
  omega

theorem resultsUpTo_append (oracle : Nat → Option Nat) (ctr n k : Nat) :
    resultsUpTo oracle ctr (n + k) =
      resultsUpTo oracle ctr n ++ resultsUpTo oracle (ctr + n) k := by
  rw [resultsUpTo, List.range_add, List.map_append, List.map_map]
  congr 1
  rw [resultsUpTo]
  congr 1
  funext j
  simp [Function.comp]
  congr 1
  omega

theorem runGroup_cons (oracle : Nat → Option Nat) (i r : Nat) (rs : List Nat)
    (fj : Option Nat) (ctr : Nat) :
    runGroup oracle i fj ctr (r :: rs) =
      ((⟨i, r, fj, fj.isSome, oracle ctr⟩ : Submission) ::
        (runGroup oracle i
          (match fj with | some j => some j | none => oracle ctr)
          (ctr + 1) rs).1,
       (runGroup oracle i
          (match fj with | some j => some j | none => oracle ctr)
          (ctr + 1) rs).2) := rfl

theorem runGroup_fst (oracle : Nat → Option Nat) (i : Nat) :
    ∀ (rs : List Nat) (fj : Option Nat) (ctr : Nat),
      (runGroup oracle i fj ctr rs).1 =
        (enumFrom 0 rs).map (fun p =>
          ⟨i, p.2, orElseFS fj (resultsUpTo oracle ctr p.1),
            (orElseFS fj (resultsUpTo oracle ctr p.1)).isSome,
            oracle (ctr + p.1)⟩) := by
  intro rs
  induction rs with
  | nil => intro fj ctr; rfl
  | cons r rs ih =>
    intro fj ctr
    rw [show (runGroup oracle i fj ctr (r :: rs)).1 =
        (⟨i, r, fj, fj.isSome, oracle ctr⟩ : Submission) ::
          (runGroup oracle i
            (match fj with | some j => some j | none => oracle ctr)
            (ctr + 1) rs).1 from rfl]
    rw [ih]
    rw [show enumFrom 0 (r :: rs) =
        (0, r) :: (enumFrom 0 rs).map (fun p => (p.1 + 1, p.2)) from by
      show (0, r) :: enumFrom (0 + 1) rs = _
      rw [enumFrom_shift]]
    rw [List.map_cons, List.map_map]
    congr 1
    · simp [orElseFS_nil, resultsUpTo_zero]
    · congr 1
      funext p
      simp only [Function.comp]
      rw [resultsUpTo_succ, orElseFS_cons]
      rw [show ctr + (p.1 + 1) = ctr + 1 + p.1 from by omega]

theorem runGroup_state (oracle : Nat → Option Nat) (i : Nat) :
    ∀ (rs : List Nat) (fj : Option Nat) (ctr : Nat),
      (runGroup oracle i fj ctr rs).2 =
        (orElseFS fj (resultsUpTo oracle ctr rs.length), ctr + rs.length) := by
  intro rs
  induction rs with
  | nil =>
    intro fj ctr
    show (fj, ctr) = _
    rw [show ([] : List Nat).length = 0 from rfl, resultsUpTo_zero,
      orElseFS_nil, Nat.add_zero]
  | cons r rs ih =>
    intro fj ctr
    rw [show (runGroup oracle i fj ctr (r :: rs)).2 =
        (runGroup oracle i
          (match fj with | some j => some j | none => oracle ctr)
          (ctr + 1) rs).2 from rfl]
    rw [ih]
    rw [show (r :: rs).length = rs.length + 1 from rfl]
    rw [resultsUpTo_succ, orElseFS_cons]
    rw [show ctr + (rs.length + 1) = ctr + 1 + rs.length from by omega]

theorem runModelAux_flatten (oracle : Nat → Option Nat) (N : Nat) :
    ∀ (is : List Nat) (fj : Option Nat) (ctr : Nat),
      (runModelAux oracle fj ctr N is).1.flatten =
        (enumFrom 0 (groupPairs is N)).map (fun p =>
          ⟨p.2.1, p.2.2, orElseFS fj (resultsUpTo oracle ctr p.1),
            (orElseFS fj (resultsUpTo oracle ctr p.1)).isSome,
            oracle (ctr + p.1)⟩) := by
  intro is
  induction is with
  | nil => intro fj ctr; rfl
  | cons i rest ih =>
    intro fj ctr
    rw [show (runModelAux oracle fj ctr N (i :: rest)).1 =
        (runGroup oracle i fj ctr (List.range N)).1 ::
          (runModelAux oracle (runGroup oracle i fj ctr (List.range N)).2.1
            (runGroup oracle i fj ctr (List.range N)).2.2 N rest).1 from rfl]
    rw [List.flatten_cons]
    rw [show (runGroup oracle i fj ctr (List.range N)).2.1 =
        orElseFS fj (resultsUpTo oracle ctr N) from by
      rw [runGroup_state]; simp]
    rw [show (runGroup oracle i fj ctr (List.range N)).2.2 = ctr + N from by
      rw [runGroup_state]; simp]
    rw [runGroup_fst, ih]
    rw [show groupPairs (i :: rest) N =
        (List.range N).map (fun r => (i, r)) ++ groupPairs rest N from by
      simp [groupPairs]]
    rw [enumFrom_append, List.map_append]
    congr 1
    · rw [enumFrom_map, List.map_map]
      congr 1
    · rw [show (0 + ((List.range N).map (fun r => (i, r))).length) = N from by
        simp]
      rw [show enumFrom N (groupPairs rest N) =
          (enumFrom 0 (groupPairs rest N)).map (fun p => (p.1 + N, p.2)) from by
        rw [show N = 0 + N from by omega, enumFrom_shift]
        simp]
      rw [List.map_map]
      congr 1
      funext p
      simp only [Function.comp]
      rw [orElseFS_append, ← resultsUpTo_append]
      rw [show N + p.1 = p.1 + N from by omega,
        show ctr + N + p.1 = ctr + (p.1 + N) from by omega]

/-- C1 as amended.  The closed form of one model's submission sequence:
first_job_id is scoped to the run-configuration MODEL, not to each
(configuration, instantiation) rerun group, so the k-th submission attempt
of a model (attempts ordered instantiation-major, rerun-minor) is made with
a dependency on the first successful job id among the model's earlier
attempts — none when no earlier attempt succeeded — is marked pre-built
exactly when such a success exists, and receives the scheduler's k-th
response.  In particular: the single dependency-free successful submission
is one per model (its first success), every submission of every later rerun
group of the same model depends on that job id, and a failed canonical
submission does not stop the remaining attempts — they are retried
dependency-free until one succeeds. -/
theorem canonical_build_scoped_per_model :
    ∀ (oracle : Nat → Option Nat) (ctr numInsts N : Nat),
      modelSubs oracle ctr numInsts N =
        (enumFrom 0 (groupPairs (List.range numInsts) N)).map (fun p =>
          ⟨p.2.1, p.2.2, firstSome (resultsUpTo oracle ctr p.1),
            (firstSome (resultsUpTo oracle ctr p.1)).isSome,
            oracle (ctr + p.1)⟩) := by
  intro oracle ctr numInsts N
  rw [modelSubs, runModel, runModelAux_flatten]
  rfl

/-- C1 counterexample.  With one model, two instantiations, one configured
rerun and a scheduler that accepts everything, the rerun group of the second
instantiation contains NO dependency-free submission: its only run is
submitted pre-built with a dependency on the first instantiation's job id
100, against the claim that every group gets exactly one canonical
dependency-free build.  And with one model, one instantiation and three
reruns whose first submission fails, the remaining attempts ARE submitted —
the second is retried as a canonical dependency-free build — against the
claim that a failed first submission stops the rest of the group. -/
theorem record_dependency_counterexample :
    ((modelSubs (fun k => some (100 + k)) 0 2 1).filter
        (fun s => s.inst == 1 && s.dep == none)).length = 0 ∧
    modelSubs (fun k => some (100 + k)) 0 2 1 =
      [⟨0, 0, none, false, some 100⟩, ⟨1, 0, some 100, true, some 101⟩] ∧
    modelSubs (fun k => if k = 0 then none else some (100 + k)) 0 1 3 =
      [⟨0, 0, none, false, none⟩, ⟨0, 1, none, false, some 101⟩,
        ⟨0, 2, some 101, true, some 102⟩] := by
  refine ⟨?_, ?_, ?_⟩ <;> decide

theorem runGroup_results (oracle : Nat → Option Nat) (i : Nat) :
    ∀ (rs : List Nat) (fj : Option Nat) (ctr : Nat),
      (runGroup oracle i fj ctr rs).1.map (fun s => s.result) =
        resultsUpTo oracle ctr rs.length := by
  intro rs
  induction rs with
  | nil => intro fj ctr; rfl
  | cons r rs ih =>
    intro fj ctr
    rw [show (runGroup oracle i fj ctr (r :: rs)).1 =
        (⟨i, r, fj, fj.isSome, oracle ctr⟩ : Submission) ::
          (runGroup oracle i
            (match fj with | some j => some j | none => oracle ctr)
            (ctr + 1) rs).1 from rfl]
    rw [List.map_cons, ih]
    rw [show (r :: rs).length = rs.length + 1 from rfl, resultsUpTo_succ]

theorem runModelAux_groups_results (oracle : Nat → Option Nat) (N : Nat) :
    ∀ (is : List Nat) (fj : Option Nat) (ctr : Nat),
      ∀ subs ∈ (runModelAux oracle fj ctr N is).1,
        ∃ c, subs.map (fun s => s.result) = resultsUpTo oracle c N := by
  intro is
  induction is with
  | nil => intro fj ctr subs hmem; cases hmem
  | cons i rest ih =>
    intro fj ctr subs hmem
    rw [show (runModelAux oracle fj ctr N (i :: rest)).1 =
        (runGroup oracle i fj ctr (List.range N)).1 ::
          (runModelAux oracle (runGroup oracle i fj ctr (List.range N)).2.1
            (runGroup oracle i fj ctr (List.range N)).2.2 N rest).1
      from rfl] at hmem
    rcases List.mem_cons.mp hmem with h | h
    · subst h
      exact ⟨ctr, by rw [runGroup_results]; simp⟩
    · exact ih _ _ subs h

theorem recordBenchAux_groups_results (oracle : Nat → Option Nat)
    (numInsts N : Nat) :
    ∀ (ms : List Nat) (ctr : Nat),
      ∀ mg ∈ recordBenchAux oracle numInsts N ctr ms,
        ∀ subs ∈ mg.2,
          ∃ c, subs.map (fun s => s.result) = resultsUpTo oracle c N := by
  intro ms
  induction ms with
  | nil => intro ctr mg hmem; cases hmem
  | cons m rest ih =>
    intro ctr mg hmem
    rw [show recordBenchAux oracle numInsts N ctr (m :: rest) =
        (m, (runModel oracle ctr numInsts N).1) ::
          recordBenchAux oracle numInsts N
            (runModel oracle ctr numInsts N).2.2 rest from rfl] at hmem
    rcases List.mem_cons.mp hmem with h | h
    · subst h
      intro subs hsubs
      exact runModelAux_groups_results oracle N _ none ctr subs hsubs
    · exact ih _ mg h

theorem groupJobIds_foldl_filterMap :
    ∀ (subs : List Submission) (acc : List Nat),
      subs.foldl
        (fun acc s =>
          match s.result with
          | none => acc
          | some j => if acc.contains j then acc else acc ++ [j]) acc =
      (subs.filterMap (fun s => s.result)).foldl
        (fun acc j => if acc.contains j then acc else acc ++ [j]) acc := by
  intro subs
  induction subs with
  | nil => intro acc; rfl
  | cons s subs ih =>
    intro acc
    cases h : s.result with
    | none =>
      simp only [List.foldl_cons, List.filterMap_cons, h]
      exact ih acc
    | some j =>
      simp only [List.foldl_cons, List.filterMap_cons, h]
      exact ih _

theorem dedupFold_of_nodup :
    ∀ (l acc : List Nat), l.Nodup → (∀ x ∈ l, x ∉ acc) →
      l.foldl (fun acc j => if acc.contains j then acc else acc ++ [j]) acc =
        acc ++ l := by
  intro l
  induction l with
  | nil => intro acc _ _; simp
  | cons j l ih =>
    intro acc hnd hdisj
    rw [List.foldl_cons]
    have hj : ¬(acc.contains j = true) := by
      intro hc
      exact hdisj j (List.mem_cons_self j l) (by simpa using hc)
    rw [if_neg hj]
    rw [ih (acc ++ [j]) (List.nodup_cons.mp hnd).2 ?_]
    · simp
    · intro x hx
      simp only [List.mem_append, List.mem_singleton]
      rintro (hxa | hxj)
      · exact hdisj x (List.mem_cons_of_mem j hx) hxa
      · exact (List.nodup_cons.mp hnd).1 (hxj ▸ hx)

theorem groupJobIds_of_nodup (subs : List Submission)
    (h : (subs.filterMap (fun s => s.result)).Nodup) :
    groupJobIds subs = subs.filterMap (fun s => s.result) := by
  rw [groupJobIds, groupJobIds_foldl_filterMap,
    dedupFold_of_nodup _ [] h (by simp)]
  simp

theorem nodup_filterMap_resultsUpTo {oracle : Nat → Option Nat}
    (hinj : injOracle oracle) (c N : Nat) :
    ((resultsUpTo oracle c N).filterMap id).Nodup := by
  rw [resultsUpTo, List.filterMap_map]
  refine List.Nodup.filterMap ?_ (List.nodup_range N)
  intro a a' b hb hb'
  simp only [Function.comp, Option.mem_def] at hb hb'
  have := hinj (c + a) (c + a') b hb hb'
  omega

theorem nodup_group_successes {oracle : Nat → Option Nat}
    (hinj : injOracle oracle) {subs : List Submission} {c N : Nat}
    (h : subs.map (fun s => s.result) = resultsUpTo oracle c N) :
    (subs.filterMap (fun s => s.result)).Nodup := by
  have hfm : subs.filterMap (fun s => s.result) =
      (subs.map (fun s => s.result)).filterMap id := by
    rw [List.filterMap_map]
    rfl
  rw [hfm, h]
  exact nodup_filterMap_resultsUpTo hinj c N

theorem flatMapCongr {α β : Type} {l : List α} {f g : α → List β}
    (h : ∀ a ∈ l, f a = g a) : l.flatMap f = l.flatMap g := by
  induction l with
  | nil => rfl
  | cons a l ih =>
    simp only [List.flatMap_cons]
    rw [h a (List.mem_cons_self a l), ih (fun x hx => h x (List.mem_cons_of_mem a hx))]

/-- The refinement of the written ledger to the claim-side ledger: when the
scheduler never repeats a job id, the rerun_map dict of every group holds
exactly that group's successful submissions in order, so the rows record
writes are exactly one per successful submission. -/
theorem ledgerOf_eq_specLedger {α : Type} [Inhabited α] (names : List String)
    (insts : List α) (N : Nat) (oracle : Nat → Option Nat)
    (hinj : injOracle oracle) :
    ledgerOf names insts N oracle = specLedger names insts N oracle := by
  rw [ledgerOf, specLedger]
  refine flatMapCongr ?_
  intro mg hmg
  refine flatMapCongr ?_
  intro ig hig
  have hsubs : ig.2 ∈ mg.2 := by
    have := List.mem_map_of_mem Prod.snd hig
    rwa [enumFrom_map_snd] at this
  obtain ⟨c, hc⟩ := recordBenchAux_groups_results oracle insts.length N
    (List.range names.length) 0 mg hmg ig.2 hsubs
  rw [groupJobIds_of_nodup ig.2 (nodup_group_successes hinj hc)]

theorem flatMap_enumFrom_snd {α β : Type} (F : α → List β) :
    ∀ (l : List α) (k : Nat),
      (enumFrom k l).flatMap (fun p => F p.2) = l.flatMap F := by
  intro l
  induction l with
  | nil => intro k; rfl
  | cons a l ih =>
    intro k
    show F a ++ (enumFrom (k + 1) l).flatMap (fun p => F p.2) = _
    rw [ih (k + 1), List.flatMap_cons]

theorem trueOutputFileName_eq (name : String) (j : Nat) :
    trueOutputFileName name j = name ++ "__" ++ toString j ++ ".out" := by
  have h : pyDropRight (name ++ "__%j.out") 8 = name := by
    rw [pyDropRight, String.data_append, List.length_append,
      show ("__%j.out" : String).data.length = 8 from rfl,
      Nat.add_sub_cancel, List.take_left]
  rw [trueOutputFileName, h]

theorem specLedger_map_rerunCount {α : Type} [Inhabited α]
    (names : List String) (insts : List α) (N : Nat)
    (oracle : Nat → Option Nat) :
    (specLedger names insts N oracle).map (fun e => e.rerunCount) =
      (groupSuccessCounts names.length insts.length N oracle).flatMap
        List.range := by
  rw [specLedger, groupSuccessCounts, List.map_flatMap, List.flatMap_assoc]
  refine flatMapCongr ?_
  intro mg _
  rw [List.map_flatMap, List.flatMap_map]
  rw [show (fun (ig : Nat × List Submission) =>
      List.map (fun e => e.rerunCount)
        ((enumFrom 0 (ig.2.filterMap (fun s => s.result))).map
          (fun p => (⟨p.2, p.1, names.getD mg.1 "",
            trueOutputFileName (names.getD mg.1 "") p.2,
            insts.getD ig.1 default⟩ : LedgerEntry α)))) =
      (fun ig : Nat × List Submission =>
        List.range ((ig.2.filterMap (fun s => s.result)).length)) from ?_]
  · exact flatMap_enumFrom_snd
      (fun subs => List.range ((subs.filterMap (fun s => s.result)).length))
      mg.2 0
  · funext ig
    rw [List.map_map]
    rw [show ((fun e : LedgerEntry α => e.rerunCount) ∘
        (fun p : Nat × Nat => (⟨p.2, p.1, names.getD mg.1 "",
          trueOutputFileName (names.getD mg.1 "") p.2,
          insts.getD ig.1 default⟩ : LedgerEntry α))) = Prod.fst from rfl]
    rw [enumFrom_map_fst, List.range_eq_range']

/-- C7. After a record pass against a scheduler that never repeats job ids,
the written ledger holds exactly one row per successfully submitted job — in
submission order, with the job's external id, the rerun index, the
configuration name, the true output-file name (the %j placeholder replaced
by the job id) and the instantiation — and a submission for which the
scheduler returned no job id contributes no row.  The concrete conjunct
shows a pass whose middle submission fails: two rows, ids 100 and 102, and
no row for the failed attempt. -/
theorem ledger_one_entry_per_success :
    (∀ (α : Type) [Inhabited α] (names : List String) (insts : List α)
        (N : Nat) (oracle : Nat → Option Nat), injOracle oracle →
        ledgerOf names insts N oracle = specLedger names insts N oracle) ∧
    (∀ (name : String) (j : Nat),
        trueOutputFileName name j = name ++ "__" ++ toString j ++ ".out") ∧
    ledgerOf ["conf"] [(0 : Nat)] 3
        (fun k => if k = 1 then none else some (100 + k)) =
      [⟨100, 0, "conf", "conf__100.out", 0⟩,
        ⟨102, 1, "conf", "conf__102.out", 0⟩] := by
  refine ⟨?_, trueOutputFileName_eq, by decide⟩
  intro α _ names insts N oracle hinj
  exact ledgerOf_eq_specLedger names insts N oracle hinj

/-- C10. Within each rerun group written by a single record pass, the ledger
rows are contiguous and carry rerun indices exactly 0, 1, ..., k-1 where k
is the number of the group's SUCCESSFUL submissions: the rerun index is
reassigned by enumerating the surviving jobs, so failed submissions leave no
gaps — the whole rerun-index column is the concatenation of an initial
segment of the naturals per group.  The concrete conjunct: one group of
three reruns whose second submission fails yields the index column [0, 1]. -/
theorem ledger_rerun_indices_contiguous :
    (∀ (α : Type) [Inhabited α] (names : List String) (insts : List α)
        (N : Nat) (oracle : Nat → Option Nat), injOracle oracle →
        (ledgerOf names insts N oracle).map (fun e => e.rerunCount) =
          (groupSuccessCounts names.length insts.length N oracle).flatMap
            List.range) ∧
    (ledgerOf ["conf"] [(0 : Nat)] 3
        (fun k => if k = 1 then none else some (100 + k))).map
      (fun e => e.rerunCount) = [0, 1] := by
  refine ⟨?_, by decide⟩
  intro α _ names insts N oracle hinj
  rw [ledgerOf_eq_specLedger names insts N oracle hinj,
    specLedger_map_rerunCount]

/-- One (run configuration, metrics) entry of the aggregated list handed to
TestBench.calculate_derived_metrics: an identifying index (standing for the
(configuration name, instantiation) pair), whether the run configuration
carries an instantiation (entries without one are skipped by both loops of
the source, lines 422 and 436), and the metric dict.  Metric values are
abstracted to integers; their only role here is to be stored. -/
structure DEntry where
  id : Nat
  hasInst : Bool
  metrics : List (String × Int)
deriving DecidableEq, Repr

/-- The inner formula loop of calculate_derived_metrics (lines 462-469) for
one entry: each derived metric's formula is evaluated by eval — modelled as
a function from the entry being extended (through which the evaluation
context is reachable) to a value or a raised exception — and written into
the entry's metric dict.  The source wraps eval in NO try/except, so a
raised exception propagates. -/
def applyFormulas (fs : List (String × (DEntry → Except String Int)))
    (e : DEntry) : Except String DEntry :=
  match fs with
  | [] => .ok e
  | (name, f) :: rest =>
    match f e with
    | .error err => .error err
    | .ok v => applyFormulas rest ⟨e.id, e.hasInst, dictInsert e.metrics (name, v)⟩

/-- TestBench.calculate_derived_metrics (lines 411-472), its error-flow
skeleton: entries without an instantiation are skipped; every remaining
entry is extended by every formula in order and appended to the output; an
exception raised by any eval propagates out of the method (there is no
try/except), aborting the remaining formulas and entries.  The context
building of lines 418-460 only assembles the data the formulas read and is
absorbed into the formula functions. -/
def calculateDerivedMetrics (fs : List (String × (DEntry → Except String Int)))
    (entries : List DEntry) : Except String (List DEntry) :=
  mapME (applyFormulas fs) (entries.filter (fun e => e.hasInst))

/-- C8 counterexample: two entries and one derived-metric formula that
raises on the first entry.  calculate_derived_metrics returns the raised
error: no output is produced at all, so the evaluation of the second
entry's derived metrics was aborted rather than the error being contained
to the first (configuration, instantiation, metric). -/
theorem derived_metric_error_counterexample :
    calculateDerivedMetrics
      [("d", fun e => if e.id = 0 then .error "boom" else .ok 1)]
      [⟨0, true, []⟩, ⟨1, true, [("m", 5)]⟩] = .error "boom" := by
  rfl

/-- C8 as amended.  An exception raised while evaluating a derived-metric
formula for one entry propagates out of calculate_derived_metrics: whenever
the entries before the raising one all evaluate cleanly, the whole result is
that error — the entries after it are never evaluated and no entry's derived
metrics are returned. -/
theorem derived_metric_error_aborts_all :
    ∀ (fs : List (String × (DEntry → Except String Int)))
      (pre : List DEntry) (e : DEntry) (post : List DEntry) (msg : String),
      (∀ p ∈ pre, p.hasInst = true) →
      (∀ p ∈ pre, (applyFormulas fs p).isOk = true) →
      e.hasInst = true →
      applyFormulas fs e = .error msg →
      calculateDerivedMetrics fs (pre ++ e :: post) = .error msg := by
  intro fs pre
  induction pre with
  | nil =>
    intro e post msg _ _ he herr
    rw [calculateDerivedMetrics, List.nil_append, List.filter_cons,
      if_pos (by simp [he])]
    rw [mapME, herr]
  | cons p pre ih =>
    intro e post msg hinst hok he herr
    rw [calculateDerivedMetrics, List.cons_append, List.filter_cons,
      if_pos (by simp [hinst p (List.mem_cons_self p pre)])]
    cases hp : applyFormulas fs p with
    | error err =>
      have hcontra := hok p (List.mem_cons_self p pre)
      rw [hp] at hcontra
      simp [Except.isOk, Except.toBool] at hcontra
    | ok r =>
      simp only [mapME, hp]
      have hrec := ih e post msg
        (fun q hq => hinst q (List.mem_cons_of_mem p hq))
        (fun q hq => hok q (List.mem_cons_of_mem p hq)) he herr
      rw [calculateDerivedMetrics] at hrec
      rw [hrec]

/-- C8 witness: the amended claim at a concrete input — one clean entry
before the raising one, one entry after it — produces exactly the raised
error. -/
theorem derived_metric_error_aborts_all_witness :
    calculateDerivedMetrics
      [("d", fun e => if e.id = 0 then .error "boom" else .ok 1)]
      ([⟨1, true, [("m", 5)]⟩] ++ (⟨0, true, []⟩ : DEntry) :: [⟨2, true, []⟩]) =
      .error "boom" :=
  derived_metric_error_aborts_all
    [("d", fun e => if e.id = 0 then .error "boom" else .ok 1)]
    [⟨1, true, [("m", 5)]⟩] ⟨0, true, []⟩ [⟨2, true, []⟩] "boom"
    (by decide) (by decide) (by decide) (by rfl)


/-- The RunConfiguration builder of configuration.py (the class yaml_model.py
imports): its name, output-file path and the structural fields realise
copies from the template. -/
structure RunConfigurationC where
  name : String
  output_file : String
  sbatch_config : List (String × Val)
  module_loads : List String
  environment_variables : List (String × Val)
  directory : Option String
  build_commands : List String
  run_command : String
  args : Option Val
deriving DecidableEq, Repr

/-- The RunConfigurationModel pydantic template (yaml_model.py lines
37-46). -/
structure RunConfigurationModelY where
  sbatch_config : List (String × Val)
  module_loads : List String
  environment_variables : List (String × Val)
  directory : String
  build_commands : List String
  run_command : String
  args : Option String
deriving DecidableEq, Repr

/-- Python's ",".join. -/
def joinComma : List String → String
  | [] => ""
  | [s] => s
  | s :: rest => s ++ "," ++ joinComma rest

/-- str(value).replace("/", "").replace(" ", "_") of configuration.py line
105: both replaced patterns are single characters, so dropping every slash
and then substituting underscores for spaces character-wise is the same
operation. -/
def varText (v : Val) : String :=
  ⟨(v.toText.data.filter (fun c => c ≠ '/')).map
    (fun c => if c = ' ' then '_' else c)⟩

/-- RunConfiguration.get_output_file_name (configuration.py lines 98-108). -/
def getOutputFileName (runName : String) (vs : List (String × Val)) : String :=
  runName ++ "__" ++
    joinComma (vs.map (fun p => p.1 ++ "=" ++ varText p.2)) ++
    "__%j.out"

/-- One step of the instantiation loop of RunConfigurationModel.realise
(yaml_model.py lines 68-71): ONLY the key "args" is applied to the run; any
other key is passed over with no effect and no error. -/
def applyInstField (run : RunConfigurationC) (kv : String × Val) :
    RunConfigurationC :=
  if kv.1 = "args" then { run with args := some kv.2 } else run

/-- RunConfigurationModel.realise (yaml_model.py lines 48-73): compute the
output-file path from the bench name, the run-configuration name and the
variables, copy every template field onto a fresh RunConfiguration, then
walk the instantiation applying recognized keys — a total function: no
instantiation field can make it fail. -/
def realiseY (model : RunConfigurationModelY) (benchName runName : String)
    (vs : List (String × Val)) : RunConfigurationC :=
  vs.foldl applyInstField
    { name := runName
      output_file := "results/" ++ benchName ++ "/" ++
        getOutputFileName runName vs
      sbatch_config := model.sbatch_config
      module_loads := model.module_loads
      environment_variables := model.environment_variables
      directory := some model.directory
      build_commands := model.build_commands
      run_command := model.run_command
      args := model.args.map Val.str }

theorem realise_foldl_eta :
    ∀ (vs : List (String × Val)) (run : RunConfigurationC),
      vs.foldl applyInstField run =
        { run with args := (vs.foldl applyInstField run).args } := by
  intro vs
  induction vs with
  | nil => intro run; rfl
  | cons kv vs ih =>
    intro run
    rw [List.foldl_cons]
    conv_lhs => rw [ih (applyInstField run kv)]
    rw [applyInstField]
    split <;> rfl

theorem realise_args_fold :
    ∀ (vs : List (String × Val)) (run : RunConfigurationC),
      (vs.foldl applyInstField run).args =
        vs.foldl
          (fun a (kv : String × Val) => if kv.1 = "args" then some kv.2 else a)
          run.args := by
  intro vs
  induction vs with
  | nil => intro run; rfl
  | cons kv vs ih =>
    intro run
    rw [List.foldl_cons, List.foldl_cons, ih (applyInstField run kv)]
    congr 1
    rw [applyInstField]
    split <;> rfl

/-- A concrete run-configuration template for the counterexample. -/
def sampleModel : RunConfigurationModelY :=
  ⟨[("nodes", Val.nat 2)], ["gcc"], [("OMP", Val.nat 4)], "src", ["make"],
    "./app", some "-n 1"⟩

/-- C9 counterexample: realising sampleModel with the instantiation
{foo: 1}, whose field name is recognized by nothing, raises no error at all
— realise is total — and applies the field to no structural field of the
run: the result is exactly the template's realisation, the stray field
surviving only inside the generated output-file name.  Against the claim,
the unrecognized field is silently dropped instead of being a reported
configuration error. -/
theorem unknown_field_counterexample :
    realiseY sampleModel "bench" "run" [("foo", Val.nat 1)] =
      ⟨"run", "results/bench/run__foo=1__%j.out", [("nodes", Val.nat 2)],
        ["gcc"], [("OMP", Val.nat 4)], some "src", ["make"], "./app",
        some (Val.str "-n 1")⟩ := by
  rfl

/-- C9 as amended.  RunConfigurationModel.realise applies exactly one
instantiation field, "args": every structural field other than args always
keeps the template's value whatever the instantiation holds; a field with
any other name leaves args unchanged as well — silently, since realise is
total and raises no configuration error — and an "args" field overrides
args with its value. -/
theorem realise_applies_only_args :
    (∀ (M : RunConfigurationModelY) (b r : String)
        (vs : List (String × Val)),
      (realiseY M b r vs).sbatch_config = M.sbatch_config ∧
      (realiseY M b r vs).module_loads = M.module_loads ∧
      (realiseY M b r vs).environment_variables = M.environment_variables ∧
      (realiseY M b r vs).directory = some M.directory ∧
      (realiseY M b r vs).build_commands = M.build_commands ∧
      (realiseY M b r vs).run_command = M.run_command ∧
      (realiseY M b r vs).name = r) ∧
    (∀ (M : RunConfigurationModelY) (b r : String)
        (vs : List (String × Val)) (k : String) (v : Val), k ≠ "args" →
      (realiseY M b r (vs ++ [(k, v)])).args = (realiseY M b r vs).args) ∧
    (∀ (M : RunConfigurationModelY) (b r : String)
        (vs : List (String × Val)) (v : Val),
      (realiseY M b r (vs ++ [("args", v)])).args = some v) := by
  refine ⟨?_, ?_, ?_⟩
  · intro M b r vs
    rw [realiseY]
    rw [realise_foldl_eta]
    exact ⟨rfl, rfl, rfl, rfl, rfl, rfl, rfl⟩
  · intro M b r vs k v hk
    rw [realiseY, realiseY, realise_args_fold, realise_args_fold,
      List.foldl_append]
    simp [hk]
  · intro M b r vs v
    rw [realiseY, realise_args_fold, List.foldl_append]
    simp
